import Mathlib

/-!
# Verification of `augur/align.py` (reference-relative alignment reconciliation)

Shallow embedding of the pure core of `augur/align.py`:

* `strip_non_reference` (reference trimmer),
* the insertion-run scan of `analyse_insertions` (insertion cataloger),
* `prettify_alignment` (post-processing finalizer),
* `check_duplicates` (duplicate detection),
* `prune_seqs_matching_alignment` (merge planner).

Python strings are modelled as `List Char`; a Biopython `SeqRecord` row of an
alignment is a `Row` with its `id`, `name`, `description` and residue string
`seq`.  Mutation of rows in place (Python `seq.seq = ...`) is modelled by
returning the post-state of the mutated structure explicitly.
-/

/-- A row of an alignment: Biopython `SeqRecord` with `id`, `name`,
`description` and the aligned residue string `seq`. -/
structure Row where
  id : List Char
  name : List Char
  description : List Char
  seq : List Char
deriving DecidableEq, Repr

/-- Errors raised by the alignment module.  `referenceNotFound` is the
`AlignmentError("ERROR: reference %s not found in alignment")` of
`strip_non_reference`. -/
inductive AlignError where
  | referenceNotFound (name : List Char)
deriving DecidableEq, Repr

/-- The boolean reference mask `ungapped = ref_array != '-'`
(line 238 of `align.py`): one entry per column of the reference row,
`true` where the reference has a non-gap residue. -/
def ungappedMask (ref : List Char) : List Bool :=
  ref.map (fun c => decide (c ≠ '-'))

/-- Column projection `np.array(aln)[:, ungapped]` applied to a single row:
keep exactly the characters in columns where the mask is `true`. -/
def maskProject (mask : List Bool) (row : List Char) : List Char :=
  ((row.zip mask).filter (fun p => p.2)).map (fun p => p.1)

/-- The dictionary lookup `seqs = {s.name: s for s in aln}; seqs[reference]`
(lines 233-235): the *last* row of `aln` whose `name` equals `reference`
(later dict entries overwrite earlier ones). -/
def findRefRow (aln : List Row) (reference : List Char) : Option Row :=
  aln.reverse.find? (fun s => decide (s.name = reference))

/-- Embedding of `strip_non_reference(aln, reference)` (lines 233-252), side effects
(printing, `analyse_insertions` CSV output) omitted: if `reference` is a row
name, project every row onto the non-gap columns of the reference row and
return the row list; otherwise raise
`AlignmentError("ERROR: reference %s not found in alignment")`.

The loop at lines 247-249 assigns `seq.seq` on the rows of the *input*
alignment and collects those same rows into `out_seqs`, so the returned rows
are the input's rows, mutated. -/
def strip_non_reference (aln : List Row) (reference : List Char) :
    Except AlignError (List Row) :=
  match findRefRow aln reference with
  | some refRow =>
      let ungapped := ungappedMask refRow.seq
      .ok (aln.map (fun s => { s with seq := maskProject ungapped s.seq }))
  | none => .error (.referenceNotFound reference)

/-- The state of the caller's alignment object after `strip_non_reference`
returns: the error is raised before the mutating loop, so on error the input
is untouched; on success every input row's `seq` was overwritten with the
projected string (line 248), i.e. the input rows coincide with the returned
rows. -/
def strip_post_aln (aln : List Row) (reference : List Char) : List Row :=
  match strip_non_reference aln reference with
  | .ok out => out
  | .error _ => aln

/-- Number of non-gap characters of a residue string. -/
def nonGapCount (s : List Char) : Nat :=
  (s.filter (fun c => decide (c ≠ '-'))).length

theorem maskProject_length (mask : List Bool) (row : List Char)
    (h : row.length = mask.length) :
    (maskProject mask row).length = mask.count true := by
  induction mask generalizing row with
  | nil =>
    cases row with
    | nil => rfl
    | cons c cs => simp at h
  | cons b bs ih =>
    cases row with
    | nil => simp at h
    | cons c cs =>
      simp only [List.length_cons, Nat.succ.injEq] at h
      have ihc := ih cs h
      simp only [maskProject] at ihc ⊢
      cases b <;>
        simp [List.zip_cons_cons, List.filter_cons, List.count_cons, ihc]

theorem ungappedMask_count (ref : List Char) :
    (ungappedMask ref).count true = nonGapCount ref := by
  induction ref with
  | nil => rfl
  | cons c cs ih =>
    simp only [ungappedMask, nonGapCount, List.map_cons, List.count_cons,
      List.filter_cons] at *
    by_cases h : c = '-'
    · simp [h] at *; omega
    · simp [h] at *; omega

theorem ungappedMask_length (ref : List Char) :
    (ungappedMask ref).length = ref.length := by
  simp [ungappedMask]

/-- C1: every output row of a successful trim has length equal to the number
of non-gap characters of the reference row. -/
theorem strip_non_reference_width (aln : List Row) (reference : List Char)
    (refRow : Row) (out : List Row)
    (hfind : findRefRow aln reference = some refRow)
    (hrect : ∀ r ∈ aln, r.seq.length = refRow.seq.length)
    (hout : strip_non_reference aln reference = .ok out) :
    ∀ r ∈ out, r.seq.length = nonGapCount refRow.seq := by
  unfold strip_non_reference at hout
  rw [hfind] at hout
  simp only [Except.ok.injEq] at hout
  subst hout
  intro r hr
  rw [List.mem_map] at hr
  obtain ⟨s, hs, rfl⟩ := hr
  simp only
  rw [maskProject_length _ _ (by rw [ungappedMask_length]; exact hrect s hs),
    ungappedMask_count]

theorem maskProject_all_true (mask : List Bool) (row : List Char)
    (h : row.length = mask.length) (hall : ∀ b ∈ mask, b = true) :
    maskProject mask row = row := by
  induction mask generalizing row with
  | nil =>
    cases row with
    | nil => rfl
    | cons c cs => simp at h
  | cons b bs ih =>
    cases row with
    | nil => simp at h
    | cons c cs =>
      simp only [List.length_cons, Nat.succ.injEq] at h
      have hb : b = true := hall b (List.mem_cons_self b bs)
      have ihc := ih cs h (fun x hx => hall x (List.mem_cons_of_mem _ hx))
      simp only [maskProject] at ihc ⊢
      subst hb
      simp [List.zip_cons_cons, List.filter_cons, ihc]

/-- C7: `strip_non_reference` raises the reference-not-found error iff the
reference name is not the name of any row; it returns normally iff the name
is present. -/
theorem strip_non_reference_refname (aln : List Row) (reference : List Char) :
    (strip_non_reference aln reference
        = .error (.referenceNotFound reference) ↔ ∀ r ∈ aln, r.name ≠ reference)
    ∧ ((∃ out, strip_non_reference aln reference = .ok out)
        ↔ ∃ r ∈ aln, r.name = reference) := by
  cases hf : findRefRow aln reference with
  | none =>
    have hnone : ∀ r ∈ aln, r.name ≠ reference := by
      intro r hr
      have hfn := List.find?_eq_none.mp hf r (List.mem_reverse.mpr hr)
      simpa using hfn
    constructor
    · exact ⟨fun _ => hnone, fun _ => by simp [strip_non_reference, hf]⟩
    · constructor
      · rintro ⟨out, hout⟩
        simp [strip_non_reference, hf] at hout
      · rintro ⟨r, hr, hname⟩
        exact absurd hname (hnone r hr)
  | some refRow =>
    have hmem : refRow ∈ aln := List.mem_reverse.mp (List.mem_of_find?_eq_some hf)
    have hname : refRow.name = reference := by
      have := List.find?_some hf
      simpa using this
    constructor
    · constructor
      · intro h
        simp [strip_non_reference, hf] at h
      · intro hall
        exact absurd hname (hall refRow hmem)
    · constructor
      · intro _
        exact ⟨refRow, hmem, hname⟩
      · intro _
        exact ⟨aln.map (fun s =>
            { s with seq := maskProject (ungappedMask refRow.seq) s.seq }),
          by simp [strip_non_reference, hf]⟩

/-- C4 counterexample: `strip_non_reference` mutates its input alignment —
after the call on a matrix whose reference row `r = "AC-GT"` has a gap, the
input's rows no longer hold their original residue strings. -/
theorem strip_post_aln_mutation_counterexample :
    strip_post_aln
        [Row.mk "r".toList "r".toList "r".toList "AC-GT".toList,
         Row.mk "x".toList "x".toList "x".toList "ACTGT".toList]
        "r".toList
      ≠ [Row.mk "r".toList "r".toList "r".toList "AC-GT".toList,
         Row.mk "x".toList "x".toList "x".toList "ACTGT".toList] := by
  decide

/-- C4 amended: a successful `strip_non_reference` overwrites the input's
rows with the projected rows (the caller's alignment afterwards equals the
returned list — same records, mutated in place); when the reference row has
no gap the residue content is unchanged (the result equals the input). -/
theorem strip_non_reference_mutates_input (aln : List Row)
    (reference : List Char) (refRow : Row) (out : List Row)
    (hfind : findRefRow aln reference = some refRow)
    (hrect : ∀ r ∈ aln, r.seq.length = refRow.seq.length)
    (hout : strip_non_reference aln reference = .ok out) :
    strip_post_aln aln reference = out ∧
      ((∀ c ∈ refRow.seq, c ≠ '-') → out = aln) := by
  constructor
  · unfold strip_post_aln
    rw [hout]
  · intro hnogap
    have hall : ∀ b ∈ ungappedMask refRow.seq, b = true := by
      intro b hb
      rw [ungappedMask, List.mem_map] at hb
      obtain ⟨c, hc, rfl⟩ := hb
      simpa using hnogap c hc
    unfold strip_non_reference at hout
    rw [hfind] at hout
    simp only [Except.ok.injEq] at hout
    subst hout
    rw [show aln.map (fun s =>
        { s with seq := maskProject (ungappedMask refRow.seq) s.seq }) = aln.map id
      from List.map_congr_left (fun s hs => by
        simp [maskProject_all_true (ungappedMask refRow.seq) s.seq
          (by rw [ungappedMask_length]; exact hrect s hs) hall]),
      List.map_id]

/-- Witness for C4's amended theorem at a gap-free concrete input. -/
theorem strip_non_reference_mutates_input_witness :
    strip_post_aln
        [Row.mk "r".toList "r".toList "r".toList "ACGT".toList,
         Row.mk "x".toList "x".toList "x".toList "TTTT".toList]
        "r".toList
      = [Row.mk "r".toList "r".toList "r".toList "ACGT".toList,
         Row.mk "x".toList "x".toList "x".toList "TTTT".toList] := by
  have h := strip_non_reference_mutates_input
    [Row.mk "r".toList "r".toList "r".toList "ACGT".toList,
     Row.mk "x".toList "x".toList "x".toList "TTTT".toList]
    "r".toList
    (Row.mk "r".toList "r".toList "r".toList "ACGT".toList)
    [Row.mk "r".toList "r".toList "r".toList "ACGT".toList,
     Row.mk "x".toList "x".toList "x".toList "TTTT".toList]
    (by decide) (by decide) rfl
  exact h.1.trans (h.2 (by decide))

/-- Witness for C1 at a concrete input: the trimmed row of `"x"` has the
width of the reference's gap-free residue count. -/
theorem strip_non_reference_width_witness :
    (Row.mk "x".toList "x".toList "x".toList "ACGT".toList).seq.length
      = nonGapCount "AC-GT".toList :=
  strip_non_reference_width
    [Row.mk "r".toList "r".toList "r".toList "AC-GT".toList,
     Row.mk "x".toList "x".toList "x".toList "ACTGT".toList]
    "r".toList
    (Row.mk "r".toList "r".toList "r".toList "AC-GT".toList)
    [Row.mk "r".toList "r".toList "r".toList "ACGT".toList,
     Row.mk "x".toList "x".toList "x".toList "ACGT".toList]
    (by decide) (by decide) rfl
    (Row.mk "x".toList "x".toList "x".toList "ACGT".toList) (by decide)

/-! ## Insertion cataloger: the run scan of `analyse_insertions` -/

/-- One entry `[_open_idx, i, _ref_idx]` of `insertion_coords` in
`analyse_insertions`: the half-open column span `[start, stop)` of a run of
reference-gap columns, tagged with the 0-based reference coordinate
`refIdx` of the reference residue immediately to its left (`-1` for a run
touching the start of the alignment). -/
structure InsRun where
  start : Nat
  stop : Nat
  refIdx : Int
deriving DecidableEq, Repr

/-- The run-collecting loop of `analyse_insertions` (lines 256-268):
state `i` is the loop index, `openIdx` is `_open_idx` (`none` = Python
`False`), `refIdx` is `_ref_idx`, `acc` is `insertion_coords`; after the
loop an open run is flushed with `stop = len(ungapped)`. -/
def scanRuns : List Bool → Nat → Option Nat → Int → List InsRun → List InsRun
  | [], _i, none, _refIdx, acc => acc
  | [], i, some o, refIdx, acc => acc ++ [⟨o, i, refIdx⟩]
  | false :: rest, i, none, refIdx, acc =>
      scanRuns rest (i + 1) (some i) refIdx acc
  | false :: rest, i, some o, refIdx, acc =>
      scanRuns rest (i + 1) (some o) refIdx acc
  | true :: rest, i, none, refIdx, acc =>
      scanRuns rest (i + 1) none (refIdx + 1) acc
  | true :: rest, i, some o, refIdx, acc =>
      scanRuns rest (i + 1) none (refIdx + 1) (acc ++ [⟨o, i, refIdx⟩])

/-- The list `insertion_coords` as computed by `analyse_insertions` from the
reference mask `ungapped`. -/
def insertionCoords (ungapped : List Bool) : List InsRun :=
  scanRuns ungapped 0 none (-1) []

/-- Column `j` lies in the span of some run of `rs`. -/
def inRunSpan (rs : List InsRun) (j : Nat) : Prop :=
  ∃ r ∈ rs, r.start ≤ j ∧ j < r.stop

theorem inRunSpan_append_singleton (acc : List InsRun) (r0 : InsRun) (j : Nat) :
    inRunSpan (acc ++ [r0]) j ↔
      inRunSpan acc j ∨ (r0.start ≤ j ∧ j < r0.stop) := by
  constructor
  · rintro ⟨r, hr, hspan⟩
    rcases List.mem_append.mp hr with h | h
    · exact Or.inl ⟨r, h, hspan⟩
    · rw [List.mem_singleton] at h
      subst h
      exact Or.inr hspan
  · rintro (⟨r, hr, hspan⟩ | hspan)
    · exact ⟨r, List.mem_append.mpr (Or.inl hr), hspan⟩
    · exact ⟨r0, List.mem_append.mpr (Or.inr (List.mem_singleton.mpr rfl)), hspan⟩

theorem exists_getD_cons (b : Bool) (rest : List Bool) (i j : Nat) :
    (∃ k, j = i + k ∧ (b :: rest).getD k true = false) ↔
      ((j = i ∧ b = false) ∨ ∃ k, j = (i + 1) + k ∧ rest.getD k true = false) := by
  constructor
  · rintro ⟨k, rfl, hk⟩
    cases k with
    | zero => exact Or.inl ⟨by omega, by simpa using hk⟩
    | succ k => exact Or.inr ⟨k, by omega, by simpa using hk⟩
  · rintro (⟨rfl, rfl⟩ | ⟨k, rfl, hk⟩)
    · exact ⟨0, by omega, rfl⟩
    · exact ⟨k + 1, by omega, by simpa using hk⟩

theorem scanRuns_mem (rest : List Bool) (i : Nat) (openIdx : Option Nat)
    (refIdx : Int) (acc : List InsRun) (j : Nat)
    (hwf : ∀ o, openIdx = some o → o ≤ i) :
    inRunSpan (scanRuns rest i openIdx refIdx acc) j ↔
      (inRunSpan acc j ∨ (∃ o, openIdx = some o ∧ o ≤ j ∧ j < i) ∨
        (∃ k, j = i + k ∧ rest.getD k true = false)) := by
  induction rest generalizing i openIdx refIdx acc with
  | nil =>
    cases openIdx with
    | none => simp [scanRuns]
    | some o =>
      rw [show scanRuns [] i (some o) refIdx acc = acc ++ [⟨o, i, refIdx⟩]
        from rfl]
      rw [inRunSpan_append_singleton]
      simp
  | cons b rest ih =>
    cases openIdx with
    | none =>
      cases b with
      | false =>
        rw [show scanRuns (false :: rest) i none refIdx acc =
          scanRuns rest (i + 1) (some i) refIdx acc from rfl]
        rw [ih (i + 1) (some i) refIdx acc
          (by intro o ho; cases ho; omega)]
        rw [exists_getD_cons]
        constructor
        · rintro (hA | ⟨o, ho, h1, h2⟩ | hD)
          · exact Or.inl hA
          · cases ho
            exact Or.inr (Or.inr (Or.inl ⟨by omega, rfl⟩))
          · exact Or.inr (Or.inr (Or.inr hD))
        · rintro (hA | ⟨o, ho, h1, h2⟩ | ⟨h1, h2⟩ | hD)
          · exact Or.inl hA
          · cases ho
          · exact Or.inr (Or.inl ⟨i, rfl, by omega, by omega⟩)
          · exact Or.inr (Or.inr hD)
      | true =>
        rw [show scanRuns (true :: rest) i none refIdx acc =
          scanRuns rest (i + 1) none (refIdx + 1) acc from rfl]
        rw [ih (i + 1) none (refIdx + 1) acc (by intro o ho; cases ho)]
        rw [exists_getD_cons]
        simp
    | some o =>
      have ho : o ≤ i := hwf o rfl
      cases b with
      | false =>
        rw [show scanRuns (false :: rest) i (some o) refIdx acc =
          scanRuns rest (i + 1) (some o) refIdx acc from rfl]
        rw [ih (i + 1) (some o) refIdx acc
          (by intro o' ho'; cases ho'; omega)]
        rw [exists_getD_cons]
        constructor
        · rintro (hA | ⟨o', ho', h1, h2⟩ | hD)
          · exact Or.inl hA
          · cases ho'
            by_cases hj : j < i
            · exact Or.inr (Or.inl ⟨o, rfl, h1, hj⟩)
            · exact Or.inr (Or.inr (Or.inl ⟨by omega, rfl⟩))
          · exact Or.inr (Or.inr (Or.inr hD))
        · rintro (hA | ⟨o', ho', h1, h2⟩ | ⟨h1, h2⟩ | hD)
          · exact Or.inl hA
          · cases ho'
            exact Or.inr (Or.inl ⟨o, rfl, h1, by omega⟩)
          · exact Or.inr (Or.inl ⟨o, rfl, by omega, by omega⟩)
          · exact Or.inr (Or.inr hD)
      | true =>
        rw [show scanRuns (true :: rest) i (some o) refIdx acc =
          scanRuns rest (i + 1) none (refIdx + 1) (acc ++ [⟨o, i, refIdx⟩])
          from rfl]
        rw [ih (i + 1) none (refIdx + 1) _ (by intro o' ho'; cases ho')]
        rw [exists_getD_cons, inRunSpan_append_singleton]
        by_cases hA : inRunSpan acc j <;>
          by_cases hD : ∃ k, j = (i + 1) + k ∧ rest.getD k true = false <;>
            simp [hA, hD]

theorem scanRuns_pairwise (rest : List Bool) (i : Nat) (openIdx : Option Nat)
    (refIdx : Int) (acc : List InsRun)
    (hwf : ∀ o, openIdx = some o → o ≤ i)
    (hacc : ∀ r ∈ acc, r.stop ≤ openIdx.getD i)
    (hpair : acc.Pairwise (fun a b => a.stop ≤ b.start)) :
    (scanRuns rest i openIdx refIdx acc).Pairwise
      (fun a b => a.stop ≤ b.start) := by
  induction rest generalizing i openIdx refIdx acc with
  | nil =>
    cases openIdx with
    | none => exact hpair
    | some o =>
      rw [show scanRuns [] i (some o) refIdx acc = acc ++ [⟨o, i, refIdx⟩]
        from rfl]
      rw [List.pairwise_append]
      refine ⟨hpair, List.pairwise_singleton _ _, ?_⟩
      intro a ha b hb
      rw [List.mem_singleton] at hb
      subst hb
      simpa using hacc a ha
  | cons b rest ih =>
    cases openIdx with
    | none =>
      cases b with
      | false =>
        refine ih (i + 1) (some i) refIdx acc
          (by intro o ho; cases ho; omega) ?_ hpair
        intro r hr
        have := hacc r hr
        simpa using this
      | true =>
        refine ih (i + 1) none (refIdx + 1) acc (by intro o ho; cases ho) ?_
          hpair
        intro r hr
        have := hacc r hr
        simp only [Option.getD_none] at this ⊢
        omega
    | some o =>
      have ho : o ≤ i := hwf o rfl
      cases b with
      | false =>
        refine ih (i + 1) (some o) refIdx acc
          (by intro o' ho'; cases ho'; omega) ?_ hpair
        intro r hr
        simpa using hacc r hr
      | true =>
        refine ih (i + 1) none (refIdx + 1) (acc ++ [⟨o, i, refIdx⟩])
          (by intro o' ho'; cases ho') ?_ ?_
        · intro r hr
          rcases List.mem_append.mp hr with h | h
          · have := hacc r h
            simp only [Option.getD_some] at this
            simp only [Option.getD_none]
            omega
          · rw [List.mem_singleton] at h
            subst h
            simp only [Option.getD_none]
            omega
        · rw [List.pairwise_append]
          refine ⟨hpair, List.pairwise_singleton _ _, ?_⟩
          intro a ha b hb
          rw [List.mem_singleton] at hb
          subst hb
          simpa using hacc a ha

theorem runs_pairwise_no_overlap (rs : List InsRun)
    (h : rs.Pairwise (fun a b => a.stop ≤ b.start)) (j : Nat) (r1 r2 : InsRun)
    (h1 : r1 ∈ rs) (h2 : r2 ∈ rs) (hj1 : r1.start ≤ j ∧ j < r1.stop)
    (hj2 : r2.start ≤ j ∧ j < r2.stop) : r1 = r2 := by
  induction rs with
  | nil => cases h1
  | cons a rs ih =>
    have hhead := (List.pairwise_cons.mp h).1
    have htail := (List.pairwise_cons.mp h).2
    rcases List.mem_cons.mp h1 with rfl | h1' <;>
      rcases List.mem_cons.mp h2 with rfl | h2'
    · rfl
    · have := hhead r2 h2'
      omega
    · have := hhead r1 h1'
      omega
    · exact ih htail h1' h2'

/-- The boundary facts of each produced run: spans are nonempty, end within
the mask, and are delimited by `true` columns (or the ends of the mask). -/
def runBounded (u : List Bool) (r : InsRun) : Prop :=
  r.start < r.stop ∧ r.stop ≤ u.length ∧
    (r.stop = u.length ∨ u.getD r.stop false = true) ∧
    (r.start = 0 ∨ u.getD (r.start - 1) false = true)

theorem runBounded_extend (pre : List Bool) (b : Bool) (r : InsRun)
    (h1 : r.start < r.stop) (h2 : r.stop < pre.length)
    (h3 : pre.getD r.stop false = true)
    (h4 : r.start = 0 ∨ pre.getD (r.start - 1) false = true) :
    r.start < r.stop ∧ r.stop < (pre ++ [b]).length ∧
      (pre ++ [b]).getD r.stop false = true ∧
      (r.start = 0 ∨ (pre ++ [b]).getD (r.start - 1) false = true) := by
  refine ⟨h1, by simp; omega, ?_, ?_⟩
  · rw [List.getD_append _ _ _ _ h2]
    exact h3
  · rcases h4 with h0 | hb
    · exact Or.inl h0
    · right
      rw [List.getD_append _ _ _ _ (by omega)]
      exact hb

theorem scanRuns_bounds (rest pre : List Bool) (openIdx : Option Nat)
    (refIdx : Int) (acc : List InsRun)
    (hopen : ∀ o, openIdx = some o →
      o < pre.length ∧ (o = 0 ∨ pre.getD (o - 1) false = true))
    (hclosed : openIdx = none →
      pre.length = 0 ∨ pre.getD (pre.length - 1) false = true)
    (hacc : ∀ r ∈ acc, r.start < r.stop ∧ r.stop < pre.length ∧
      pre.getD r.stop false = true ∧
      (r.start = 0 ∨ pre.getD (r.start - 1) false = true)) :
    ∀ r ∈ scanRuns rest pre.length openIdx refIdx acc,
      runBounded (pre ++ rest) r := by
  induction rest generalizing pre openIdx refIdx acc with
  | nil =>
    intro r hr
    rw [List.append_nil]
    cases openIdx with
    | none =>
      obtain ⟨h1, h2, h3, h4⟩ := hacc r hr
      exact ⟨h1, by omega, Or.inr h3, h4⟩
    | some o =>
      rw [show scanRuns [] pre.length (some o) refIdx acc
        = acc ++ [⟨o, pre.length, refIdx⟩] from rfl] at hr
      rcases List.mem_append.mp hr with h | h
      · obtain ⟨h1, h2, h3, h4⟩ := hacc r h
        exact ⟨h1, by omega, Or.inr h3, h4⟩
      · rw [List.mem_singleton] at h
        subst h
        obtain ⟨ho1, ho2⟩ := hopen o rfl
        exact ⟨ho1, Nat.le_refl _, Or.inl rfl, ho2⟩
  | cons b rest ih =>
    have hlen : (pre ++ [b]).length = pre.length + 1 := by simp
    have hassoc : (pre ++ [b]) ++ rest = pre ++ b :: rest := by
      rw [List.append_assoc, List.singleton_append]
    cases openIdx with
    | none =>
      cases b with
      | false =>
        rw [show scanRuns (false :: rest) pre.length none refIdx acc =
          scanRuns rest (pre.length + 1) (some pre.length) refIdx acc
          from rfl]
        have key := ih (pre ++ [false]) (some pre.length) refIdx acc
          ?_ (by intro h; cases h) ?_
        · rw [hlen, hassoc] at key
          exact key
        · intro o ho
          cases ho
          refine ⟨by simp, ?_⟩
          rcases hclosed rfl with h0 | hlast
          · exact Or.inl h0
          · by_cases hp : pre.length = 0
            · exact Or.inl hp
            · right
              rw [List.getD_append _ _ _ _ (by omega)]
              exact hlast
        · intro r hr
          obtain ⟨h1, h2, h3, h4⟩ := hacc r hr
          exact runBounded_extend pre false r h1 h2 h3 h4
      | true =>
        rw [show scanRuns (true :: rest) pre.length none refIdx acc =
          scanRuns rest (pre.length + 1) none (refIdx + 1) acc from rfl]
        have key := ih (pre ++ [true]) none (refIdx + 1) acc
          (by intro o ho; cases ho) ?_ ?_
        · rw [hlen, hassoc] at key
          exact key
        · intro _
          right
          have hidx : (pre ++ [true]).length - 1 = pre.length := by simp
          rw [hidx, List.getD_append_right _ _ _ _ (Nat.le_refl _),
            Nat.sub_self]
          rfl
        · intro r hr
          obtain ⟨h1, h2, h3, h4⟩ := hacc r hr
          exact runBounded_extend pre true r h1 h2 h3 h4
    | some o =>
      obtain ⟨ho1, ho2⟩ := hopen o rfl
      cases b with
      | false =>
        rw [show scanRuns (false :: rest) pre.length (some o) refIdx acc =
          scanRuns rest (pre.length + 1) (some o) refIdx acc from rfl]
        have key := ih (pre ++ [false]) (some o) refIdx acc
          ?_ (by intro h; cases h) ?_
        · rw [hlen, hassoc] at key
          exact key
        · intro o' ho'
          cases ho'
          refine ⟨by simp; omega, ?_⟩
          rcases ho2 with h0 | hb
          · exact Or.inl h0
          · right
            rw [List.getD_append _ _ _ _ (by omega)]
            exact hb
        · intro r hr
          obtain ⟨h1, h2, h3, h4⟩ := hacc r hr
          exact runBounded_extend pre false r h1 h2 h3 h4
      | true =>
        rw [show scanRuns (true :: rest) pre.length (some o) refIdx acc =
          scanRuns rest (pre.length + 1) none (refIdx + 1)
            (acc ++ [⟨o, pre.length, refIdx⟩]) from rfl]
        have key := ih (pre ++ [true]) none (refIdx + 1)
          (acc ++ [⟨o, pre.length, refIdx⟩])
          (by intro o' ho'; cases ho') ?_ ?_
        · rw [hlen, hassoc] at key
          exact key
        · intro _
          right
          have hidx : (pre ++ [true]).length - 1 = pre.length := by simp
          rw [hidx, List.getD_append_right _ _ _ _ (Nat.le_refl _),
            Nat.sub_self]
          rfl
        · intro r hr
          rcases List.mem_append.mp hr with h | h
          · obtain ⟨h1, h2, h3, h4⟩ := hacc r h
            exact runBounded_extend pre true r h1 h2 h3 h4
          · rw [List.mem_singleton] at h
            subst h
            refine ⟨ho1, by simp, ?_, ?_⟩
            · rw [List.getD_append_right _ _ _ _ (Nat.le_refl _),
                Nat.sub_self]
              rfl
            · rcases ho2 with h0 | hb
              · exact Or.inl h0
              · right
                rw [List.getD_append _ _ _ _
                  (show o - 1 < pre.length by omega)]
                exact hb

/-- C2: the runs computed by the run scan of `analyse_insertions` are
maximal contiguous spans of `false` mask entries: a column lies in some run
iff it is a `false` column of the mask (so true-mask columns plus the run
spans exactly cover `[0, width)`, including a trailing run), no column lies
in two distinct runs, and each run is nonempty and delimited by `true`
columns or the mask ends. -/
theorem insertionCoords_partition (ungapped : List Bool) :
    (∀ j, inRunSpan (insertionCoords ungapped) j ↔
        (j < ungapped.length ∧ ungapped.getD j true = false)) ∧
    (∀ j r1 r2, r1 ∈ insertionCoords ungapped →
        r2 ∈ insertionCoords ungapped → r1.start ≤ j → j < r1.stop →
        r2.start ≤ j → j < r2.stop → r1 = r2) ∧
    (∀ r ∈ insertionCoords ungapped, runBounded ungapped r) := by
  refine ⟨?_, ?_, ?_⟩
  · intro j
    rw [show insertionCoords ungapped = scanRuns ungapped 0 none (-1) []
      from rfl]
    rw [scanRuns_mem ungapped 0 none (-1) [] j (by intro o ho; cases ho)]
    constructor
    · rintro (⟨r, hr, _⟩ | ⟨o, ho, _⟩ | ⟨k, rfl, hk⟩)
      · cases hr
      · cases ho
      · refine ⟨?_, by simpa using hk⟩
        by_contra hlen
        rw [List.getD_eq_default _ _ (by omega)] at hk
        exact absurd hk (by decide)
    · rintro ⟨hlen, hj⟩
      exact Or.inr (Or.inr ⟨j, by omega, hj⟩)
  · intro j r1 r2 h1 h2 ha hb hc hd
    have hp := scanRuns_pairwise ungapped 0 none (-1) []
      (by intro o ho; cases ho) (by intro r hr; cases hr) List.Pairwise.nil
    exact runs_pairwise_no_overlap _ hp j r1 r2 h1 h2 ⟨ha, hb⟩ ⟨hc, hd⟩
  · have hb := scanRuns_bounds ungapped [] none (-1) []
      (by intro o ho; cases ho) (fun _ => Or.inl rfl)
      (by intro r hr; cases hr)
    simpa [insertionCoords] using hb

/-- Witness for C2: in the mask `[false, true]` the leading gap column 0
lies in a run. -/
theorem insertionCoords_partition_witness :
    inRunSpan (insertionCoords [false, true]) 0 :=
  ((insertionCoords_partition [false, true]).1 0).mpr (by decide)

theorem scanRuns_refIdx (rest pre : List Bool) (openIdx : Option Nat)
    (refIdx : Int) (acc : List InsRun)
    (href : refIdx = (pre.count true : Int) - 1)
    (hopen : ∀ o, openIdx = some o → o ≤ pre.length ∧
      (pre.take o).count true = pre.count true)
    (hacc : ∀ r ∈ acc, r.start ≤ pre.length ∧
      r.refIdx = ((pre.take r.start).count true : Int) - 1) :
    ∀ r ∈ scanRuns rest pre.length openIdx refIdx acc,
      r.start ≤ (pre ++ rest).length ∧
      r.refIdx = (((pre ++ rest).take r.start).count true : Int) - 1 := by
  induction rest generalizing pre openIdx refIdx acc with
  | nil =>
    intro r hr
    rw [List.append_nil]
    cases openIdx with
    | none => exact hacc r hr
    | some o =>
      rw [show scanRuns [] pre.length (some o) refIdx acc
        = acc ++ [⟨o, pre.length, refIdx⟩] from rfl] at hr
      rcases List.mem_append.mp hr with h | h
      · exact hacc r h
      · rw [List.mem_singleton] at h
        subst h
        obtain ⟨ho1, ho2⟩ := hopen o rfl
        exact ⟨ho1, by rw [href, ho2]⟩
  | cons b rest ih =>
    have hlen : (pre ++ [b]).length = pre.length + 1 := by simp
    have hassoc : (pre ++ [b]) ++ rest = pre ++ b :: rest := by
      rw [List.append_assoc, List.singleton_append]
    have hcntT : ((pre ++ [true]).count true : Int)
        = (pre.count true : Int) + 1 := by
      rw [List.count_append]
      push_cast
      simp
    have hcntF : ((pre ++ [false]).count true : Int)
        = (pre.count true : Int) := by
      rw [List.count_append]
      push_cast
      simp
    cases openIdx with
    | none =>
      cases b with
      | false =>
        rw [show scanRuns (false :: rest) pre.length none refIdx acc =
          scanRuns rest (pre.length + 1) (some pre.length) refIdx acc
          from rfl]
        have key := ih (pre ++ [false]) (some pre.length) refIdx acc
          (by rw [href, hcntF]) ?_ ?_
        · rw [hlen, hassoc] at key
          exact key
        · intro o ho
          cases ho
          refine ⟨by simp, ?_⟩
          rw [List.take_append_of_le_length (Nat.le_refl _),
            List.take_length]
          have : ((pre ++ [false]).count true : Int)
              = (pre.count true : Int) := hcntF
          omega
        · intro r hr
          obtain ⟨h1, h2⟩ := hacc r hr
          refine ⟨by simp; omega, ?_⟩
          rw [List.take_append_of_le_length h1]
          exact h2
      | true =>
        rw [show scanRuns (true :: rest) pre.length none refIdx acc =
          scanRuns rest (pre.length + 1) none (refIdx + 1) acc from rfl]
        have key := ih (pre ++ [true]) none (refIdx + 1) acc
          (by rw [href, hcntT]; omega) (by intro o ho; cases ho) ?_
        · rw [hlen, hassoc] at key
          exact key
        · intro r hr
          obtain ⟨h1, h2⟩ := hacc r hr
          refine ⟨by simp; omega, ?_⟩
          rw [List.take_append_of_le_length h1]
          exact h2
    | some o =>
      obtain ⟨ho1, ho2⟩ := hopen o rfl
      cases b with
      | false =>
        rw [show scanRuns (false :: rest) pre.length (some o) refIdx acc =
          scanRuns rest (pre.length + 1) (some o) refIdx acc from rfl]
        have key := ih (pre ++ [false]) (some o) refIdx acc
          (by rw [href, hcntF]) ?_ ?_
        · rw [hlen, hassoc] at key
          exact key
        · intro o' ho'
          cases ho'
          refine ⟨by simp; omega, ?_⟩
          rw [List.take_append_of_le_length ho1]
          have : ((pre ++ [false]).count true : Int)
              = (pre.count true : Int) := hcntF
          omega
        · intro r hr
          obtain ⟨h1, h2⟩ := hacc r hr
          refine ⟨by simp; omega, ?_⟩
          rw [List.take_append_of_le_length h1]
          exact h2
      | true =>
        rw [show scanRuns (true :: rest) pre.length (some o) refIdx acc =
          scanRuns rest (pre.length + 1) none (refIdx + 1)
            (acc ++ [⟨o, pre.length, refIdx⟩]) from rfl]
        have key := ih (pre ++ [true]) none (refIdx + 1)
          (acc ++ [⟨o, pre.length, refIdx⟩])
          (by rw [href, hcntT]; omega) (by intro o' ho'; cases ho') ?_
        · rw [hlen, hassoc] at key
          exact key
        · intro r hr
          rcases List.mem_append.mp hr with h | h
          · obtain ⟨h1, h2⟩ := hacc r h
            refine ⟨by simp; omega, ?_⟩
            rw [List.take_append_of_le_length h1]
            exact h2
          · rw [List.mem_singleton] at h
            subst h
            refine ⟨by simp; omega, ?_⟩
            rw [List.take_append_of_le_length ho1]
            rw [show (⟨o, pre.length, refIdx⟩ : InsRun).refIdx = refIdx
              from rfl, href, ho2]

/-- The 1-based reference position `insertion_coord[2]+1` printed in the
per-run summary line `"{}bp insertion at ref position {}"` (line 280). -/
def summaryRefPos (r : InsRun) : Int := r.refIdx + 1

/-- The 1-based reference position `ic[2]+1` encoded in the report column
header `"insertion: {}bp @ ref pos {}"` (line 289). -/
def headerRefPos (r : InsRun) : Int := r.refIdx + 1

/-- C6: each run's stored left coordinate is the number of true mask entries
strictly before the run minus one (so a run touching column 0 is tagged
`-1`), and both printed 1-based positions are that coordinate plus one,
i.e. the count itself — hence `0` for a leading run. -/
theorem insertionCoords_refIdx_spec (ungapped : List Bool) :
    ∀ r ∈ insertionCoords ungapped,
      r.refIdx = (((ungapped.take r.start).count true : Int)) - 1 ∧
      summaryRefPos r = ((ungapped.take r.start).count true : Int) ∧
      headerRefPos r = ((ungapped.take r.start).count true : Int) ∧
      (r.start = 0 → r.refIdx = -1 ∧ summaryRefPos r = 0 ∧
        headerRefPos r = 0) := by
  intro r hr
  have key := scanRuns_refIdx ungapped [] none (-1) []
    (by simp) (by intro o ho; cases ho) (by intro r' hr'; cases hr') r
    (by simpa [insertionCoords] using hr)
  rw [List.nil_append] at key
  obtain ⟨-, h2⟩ := key
  refine ⟨h2, ?_, ?_, ?_⟩
  · rw [summaryRefPos, h2]
    omega
  · rw [headerRefPos, h2]
    omega
  · intro h0
    rw [h0] at h2
    simp only [List.take_zero, List.count_nil] at h2
    refine ⟨by omega, ?_, ?_⟩
    · rw [summaryRefPos]
      omega
    · rw [headerRefPos]
      omega

/-- Witness for C6 at the mask `[false, true, false]`: the leading run
`⟨0, 1, -1⟩` and its reported position `0`. -/
theorem insertionCoords_refIdx_spec_witness :
    (InsRun.mk 0 1 (-1)).refIdx
        = ((([false, true, false].take (InsRun.mk 0 1 (-1)).start).count true
          : Int)) - 1 ∧
      summaryRefPos (InsRun.mk 0 1 (-1))
        = ((([false, true, false].take (InsRun.mk 0 1 (-1)).start).count true
          : Int)) ∧
      headerRefPos (InsRun.mk 0 1 (-1))
        = ((([false, true, false].take (InsRun.mk 0 1 (-1)).start).count true
          : Int)) ∧
      ((InsRun.mk 0 1 (-1)).start = 0 →
        (InsRun.mk 0 1 (-1)).refIdx = -1 ∧
        summaryRefPos (InsRun.mk 0 1 (-1)) = 0 ∧
        headerRefPos (InsRun.mk 0 1 (-1)) = 0) :=
  insertionCoords_refIdx_spec [false, true, false] (InsRun.mk 0 1 (-1))
    (by decide)

/-! ## Post-processing finalizer: `prettify_alignment` -/

/-- The test `s.startswith("_R_")` of lines 314, 317 and 319. -/
def hasRCMarker (s : List Char) : Bool :=
  match s with
  | '_' :: 'R' :: '_' :: _ => true
  | _ => false

/-- The conditional marker strip: `s[3:]` when `s.startswith("_R_")`,
otherwise `s` unchanged. -/
def stripRC (s : List Char) : List Char :=
  if hasRCMarker s then s.drop 3 else s

/-- The body of the loop of `prettify_alignment` (lines 311-320) for one
row: uppercase the residues (`seq.seq.upper()`, modelled by `Char.toUpper`
on the ASCII residue alphabet) and strip a leading `_R_` marker from `id`,
`name` and `description`. -/
def prettifySeq (r : Row) : Row :=
  { r with
    seq := r.seq.map Char.toUpper
    id := stripRC r.id
    name := stripRC r.name
    description := stripRC r.description }

/-- The finalizer `prettify_alignment` mutates every row in place (lines 311-320); the
post-state of the alignment is the row-wise transform. -/
def prettify_alignment (aln : List Row) : List Row :=
  aln.map prettifySeq

theorem toUpper_toUpper (c : Char) : c.toUpper.toUpper = c.toUpper := by
  simp only [Char.toUpper]
  by_cases h : c.toNat ≥ 97 ∧ c.toNat ≤ 122
  · rw [if_pos h]
    have hv : (c.toNat - 32).isValidChar := Or.inl (by omega)
    have ht : (Char.ofNat (c.toNat - 32)).toNat = c.toNat - 32 := by
      rw [Char.ofNat, dif_pos hv]
      rfl
    rw [if_neg (by rw [ht]; omega)]
  · rw [if_neg h, if_neg h]

theorem stripRC_of_no_marker (s : List Char) (h : hasRCMarker s = false) :
    stripRC s = s := by
  unfold stripRC
  rw [h]
  simp

theorem prettifySeq_idem (r : Row)
    (h1 : hasRCMarker (stripRC r.id) = false)
    (h2 : hasRCMarker (stripRC r.name) = false)
    (h3 : hasRCMarker (stripRC r.description) = false) :
    prettifySeq (prettifySeq r) = prettifySeq r := by
  unfold prettifySeq
  simp only
  rw [stripRC_of_no_marker _ h1, stripRC_of_no_marker _ h2, stripRC_of_no_marker _ h3,
    List.map_map]
  congr 1
  exact List.map_congr_left (fun c _ => toUpper_toUpper c)

/-- C8 counterexample: `prettify_alignment` is not idempotent on a row whose
identifier carries a doubled reverse-complement marker `_R__R_a` — the
second application strips the marker again. -/
theorem prettify_alignment_not_idempotent :
    prettify_alignment (prettify_alignment
        [Row.mk "_R__R_a".toList "_R__R_a".toList "_R__R_a".toList
          "acgt".toList])
      ≠ prettify_alignment
        [Row.mk "_R__R_a".toList "_R__R_a".toList "_R__R_a".toList
          "acgt".toList] := by
  decide

/-- C8 amended: on every alignment in which no row's identifier, name or
description still begins with the `_R_` marker after one strip (i.e. no
field carries a doubled marker), `prettify_alignment` is idempotent. -/
theorem prettify_alignment_idem (aln : List Row)
    (h : ∀ r ∈ aln, hasRCMarker (stripRC r.id) = false ∧
      hasRCMarker (stripRC r.name) = false ∧
      hasRCMarker (stripRC r.description) = false) :
    prettify_alignment (prettify_alignment aln) = prettify_alignment aln := by
  unfold prettify_alignment
  rw [List.map_map]
  apply List.map_congr_left
  intro r hr
  obtain ⟨h1, h2, h3⟩ := h r hr
  exact prettifySeq_idem r h1 h2 h3

/-- Witness for C8's amended theorem on a single-marker row. -/
theorem prettify_alignment_idem_witness :
    prettify_alignment (prettify_alignment
        [Row.mk "_R_a".toList "_R_a".toList "_R_a".toList "acgt".toList])
      = prettify_alignment
        [Row.mk "_R_a".toList "_R_a".toList "_R_a".toList "acgt".toList] :=
  prettify_alignment_idem
    [Row.mk "_R_a".toList "_R_a".toList "_R_a".toList "acgt".toList]
    (by decide)

/-! ## Duplicate detection: `check_duplicates` -/

/-- One argument of `check_duplicates`, dispatched on its runtime type at
lines 347-361: `dict` carries the dictionary's keys in iteration order,
`msa` an alignment's rows, `str` a raw name; `noneVal` models a falsy
non-collection argument (e.g. the default `False` existing alignment),
`other` a truthy value of any unsupported type. -/
inductive Sample where
  | dict (keys : List (List Char))
  | msa (rows : List Row)
  | str (s : List Char)
  | noneVal
  | other
deriving DecidableEq, Repr

/-- The Python truthiness test `not sample` of line 348: empty collections,
empty strings and `False`-like values are falsy. -/
def isFalsy : Sample → Bool
  | .dict keys => keys.isEmpty
  | .msa rows => rows.isEmpty
  | .str s => s.isEmpty
  | .noneVal => true
  | .other => false

/-- The errors `check_duplicates` can raise: `duplicateStrain` is the
`AlignmentError("Duplicate strains of ... detected")` raised by the nested
`add` (line 344); `typeError` is the bare `TypeError()` of the final `else`
(line 361), which is outside the `AlignmentError` taxonomy. -/
inductive CheckError where
  | duplicateStrain (name : List Char)
  | typeError
deriving DecidableEq, Repr

/-- The nested `add(name)` (lines 342-345) acting on the running `names`
set, modelled as the list of names added so far. -/
def addName (names : List (List Char)) (n : List Char) :
    Except CheckError (List (List Char)) :=
  if n ∈ names then .error (.duplicateStrain n) else .ok (n :: names)

/-- The helper `add` applied to each name of a collection in iteration
order. -/
def addNames (names : List (List Char)) :
    List (List Char) → Except CheckError (List (List Char))
  | [] => .ok names
  | n :: rest =>
      match addName names n with
      | .error e => .error e
      | .ok names2 => addNames names2 rest

/-- One iteration of the `for sample in values` loop (lines 347-361). -/
def processSample (names : List (List Char)) (s : Sample) :
    Except CheckError (List (List Char)) :=
  if isFalsy s then .ok names
  else
    match s with
    | .dict keys => addNames names keys
    | .msa rows => addNames names (rows.map Row.name)
    | .str n => addName names n
    | .noneVal => .ok names
    | .other => .error .typeError

/-- The loop of `check_duplicates` over all arguments, threading `names`. -/
def processAll (names : List (List Char)) :
    List Sample → Except CheckError (List (List Char))
  | [] => .ok names
  | s :: rest =>
      match processSample names s with
      | .error e => .error e
      | .ok names2 => processAll names2 rest

/-- Embedding of `check_duplicates(*values)` (lines 340-361). -/
def check_duplicates (values : List Sample) : Except CheckError Unit :=
  match processAll [] values with
  | .error e => .error e
  | .ok _ => .ok ()

/-- The names a sample contributes to the duplicate scan (falsy samples are
skipped and contribute nothing). -/
def sampleNames : Sample → List (List Char)
  | .dict keys => keys
  | .msa rows => rows.map Row.name
  | .str s => if s.isEmpty then [] else [s]
  | .noneVal => []
  | .other => []

theorem processSample_eq_addNames (names : List (List Char)) (s : Sample)
    (h : s ≠ .other) :
    processSample names s = addNames names (sampleNames s) := by
  cases s with
  | dict keys =>
    cases keys with
    | nil => rfl
    | cons k ks => simp [processSample, isFalsy, sampleNames]
  | msa rows =>
    cases rows with
    | nil => rfl
    | cons r rs => simp [processSample, isFalsy, sampleNames]
  | str s =>
    cases s with
    | nil => rfl
    | cons c cs =>
      cases hadd : addName names (c :: cs) with
      | error e => simp [processSample, isFalsy, sampleNames, addNames, hadd]
      | ok ns => simp [processSample, isFalsy, sampleNames, addNames, hadd]
  | noneVal => rfl
  | other => exact absurd rfl h

theorem addNames_ok_iff (l : List (List Char)) :
    ∀ names, (∃ names2, addNames names l = .ok names2) ↔
      (l.Nodup ∧ ∀ x ∈ l, x ∉ names) := by
  induction l with
  | nil =>
    intro names
    simp [addNames]
  | cons n rest ih =>
    intro names
    by_cases h : n ∈ names
    · rw [show addNames names (n :: rest) = .error (.duplicateStrain n) by
        simp [addNames, addName, h]]
      constructor
      · rintro ⟨ns, hns⟩
        exact Except.noConfusion hns
      · rintro ⟨-, hall⟩
        exact absurd h (hall n (List.mem_cons_self n rest))
    · rw [show addNames names (n :: rest) = addNames (n :: names) rest by
        simp [addNames, addName, h]]
      rw [ih (n :: names)]
      constructor
      · rintro ⟨hnd, hall⟩
        refine ⟨List.nodup_cons.mpr ⟨?_, hnd⟩, ?_⟩
        · intro hn
          exact hall n hn (List.mem_cons_self n names)
        · intro x hx
          rcases List.mem_cons.mp hx with rfl | hmem
          · exact h
          · intro hxn
            exact hall x hmem (List.mem_cons_of_mem _ hxn)
      · rintro ⟨hnd, hall⟩
        refine ⟨(List.nodup_cons.mp hnd).2, ?_⟩
        intro x hx hxin
        rcases List.mem_cons.mp hxin with rfl | hmem
        · exact (List.nodup_cons.mp hnd).1 hx
        · exact hall x (List.mem_cons_of_mem _ hx) hmem

theorem addNames_ok_mem (l : List (List Char)) :
    ∀ names names2, addNames names l = .ok names2 →
      ∀ x, x ∈ names2 ↔ (x ∈ names ∨ x ∈ l) := by
  induction l with
  | nil =>
    intro names names2 h x
    simp only [addNames, Except.ok.injEq] at h
    subst h
    simp
  | cons n rest ih =>
    intro names names2 h x
    by_cases hn : n ∈ names
    · rw [show addNames names (n :: rest) = .error (.duplicateStrain n) by
        simp [addNames, addName, hn]] at h
      exact Except.noConfusion h
    · rw [show addNames names (n :: rest) = addNames (n :: names) rest by
        simp [addNames, addName, hn]] at h
      rw [ih (n :: names) names2 h x, List.mem_cons, List.mem_cons]
      tauto

theorem addNames_error_dup (l : List (List Char)) :
    ∀ names e, addNames names l = .error e →
      ∃ n, e = .duplicateStrain n := by
  induction l with
  | nil =>
    intro names e h
    exact Except.noConfusion h
  | cons n rest ih =>
    intro names e h
    by_cases hn : n ∈ names
    · rw [show addNames names (n :: rest) = .error (.duplicateStrain n) by
        simp [addNames, addName, hn]] at h
      injection h with h
      exact ⟨n, h.symm⟩
    · rw [show addNames names (n :: rest) = addNames (n :: names) rest by
        simp [addNames, addName, hn]] at h
      exact ih (n :: names) e h

theorem processAll_append (l1 l2 : List Sample) :
    ∀ names, processAll names (l1 ++ l2)
      = match processAll names l1 with
        | .error e => .error e
        | .ok ns => processAll ns l2 := by
  induction l1 with
  | nil => intro names; rfl
  | cons s rest ih =>
    intro names
    rw [List.cons_append]
    cases hps : processSample names s with
    | error e => simp [processAll, hps]
    | ok ns => simp [processAll, hps, ih ns]

theorem check_two_dup_iff (A B : Sample) (hA : A ≠ .other) (hB : B ≠ .other)
    (hnA : (sampleNames A).Nodup) (hnB : (sampleNames B).Nodup) :
    (∃ n, check_duplicates [A, B] = .error (.duplicateStrain n)) ↔
      ∃ n, n ∈ sampleNames A ∧ n ∈ sampleNames B := by
  obtain ⟨nsA, hA1⟩ : ∃ ns, addNames [] (sampleNames A) = .ok ns :=
    (addNames_ok_iff (sampleNames A) []).mpr ⟨hnA, by simp⟩
  cases haddB : addNames nsA (sampleNames B) with
  | ok nsB =>
    have hcd : check_duplicates [A, B] = .ok () := by
      simp [check_duplicates, processAll, processSample_eq_addNames _ _ hA,
        processSample_eq_addNames _ _ hB, hA1, haddB]
    constructor
    · rintro ⟨n, hn⟩
      rw [hcd] at hn
      exact Except.noConfusion hn
    · rintro ⟨n, hnA', hnB'⟩
      obtain ⟨-, hallB⟩ := (addNames_ok_iff (sampleNames B) nsA).mp
        ⟨nsB, haddB⟩
      have hmem : n ∈ nsA :=
        (addNames_ok_mem (sampleNames A) [] nsA hA1 n).mpr (Or.inr hnA')
      exact absurd hmem (hallB n hnB')
  | error e =>
    have hcd : check_duplicates [A, B] = .error e := by
      simp [check_duplicates, processAll, processSample_eq_addNames _ _ hA,
        processSample_eq_addNames _ _ hB, hA1, haddB]
    obtain ⟨n, rfl⟩ := addNames_error_dup (sampleNames B) nsA e haddB
    have hshared : ∃ m, m ∈ sampleNames A ∧ m ∈ sampleNames B := by
      have hnotok : ¬ ∀ x ∈ sampleNames B, x ∉ nsA := by
        intro hq
        obtain ⟨ns2, hok⟩ :=
          (addNames_ok_iff (sampleNames B) nsA).mpr ⟨hnB, hq⟩
        rw [haddB] at hok
        exact Except.noConfusion hok
      push_neg at hnotok
      obtain ⟨x, hxB, hxA⟩ := hnotok
      rcases (addNames_ok_mem (sampleNames A) [] nsA hA1 x).mp hxA with
        hnil | hxAn
      · cases hnil
      · exact ⟨x, hxAn, hxB⟩
    exact iff_of_true ⟨n, hcd⟩ hshared

/-- C5: for two internally duplicate-free (non-`other`) collections,
`check_duplicates` raises the duplicate-strain error on `[A, B]` iff it does
on `[B, A]`, namely iff `A` and `B` share a name. -/
theorem check_duplicates_symmetric (A B : Sample)
    (hA : A ≠ .other) (hB : B ≠ .other)
    (hnA : (sampleNames A).Nodup) (hnB : (sampleNames B).Nodup) :
    ((∃ n, check_duplicates [A, B] = .error (.duplicateStrain n)) ↔
      (∃ n, check_duplicates [B, A] = .error (.duplicateStrain n))) ∧
    ((∃ n, check_duplicates [A, B] = .error (.duplicateStrain n)) ↔
      (∃ n, n ∈ sampleNames A ∧ n ∈ sampleNames B)) := by
  have h1 := check_two_dup_iff A B hA hB hnA hnB
  have h2 := check_two_dup_iff B A hB hA hnB hnA
  have hflip : (∃ n, n ∈ sampleNames B ∧ n ∈ sampleNames A) ↔
      (∃ n, n ∈ sampleNames A ∧ n ∈ sampleNames B) :=
    exists_congr fun n => and_comm
  exact ⟨h1.trans (h2.trans hflip).symm, h1⟩

/-- Witness for C5 with a raw name and a dictionary sharing the name. -/
theorem check_duplicates_symmetric_witness :
    ((∃ n, check_duplicates [Sample.str ['a'], Sample.dict [['a']]]
        = .error (.duplicateStrain n)) ↔
      (∃ n, check_duplicates [Sample.dict [['a']], Sample.str ['a']]
        = .error (.duplicateStrain n))) ∧
    ((∃ n, check_duplicates [Sample.str ['a'], Sample.dict [['a']]]
        = .error (.duplicateStrain n)) ↔
      (∃ n, n ∈ sampleNames (Sample.str ['a']) ∧
        n ∈ sampleNames (Sample.dict [['a']]))) :=
  check_duplicates_symmetric (Sample.str ['a']) (Sample.dict [['a']])
    (by decide) (by decide) (by decide) (by decide)

/-- C9: when the scan reaches a truthy argument that is neither a dict nor
an alignment nor a string, `check_duplicates` raises the bare `TypeError`,
never the duplicate-strain `AlignmentError`, whatever the names involved. -/
theorem check_duplicates_typeError (pre post : List Sample)
    (names2 : List (List Char))
    (h : processAll [] pre = .ok names2) :
    check_duplicates (pre ++ Sample.other :: post) = .error .typeError ∧
    ∀ n, check_duplicates (pre ++ Sample.other :: post)
      ≠ .error (.duplicateStrain n) := by
  have hsplit := processAll_append pre (Sample.other :: post) []
  rw [h] at hsplit
  have hrun : processAll [] (pre ++ Sample.other :: post)
      = .error .typeError := by
    rw [hsplit]
    rfl
  constructor
  · simp [check_duplicates, hrun]
  · intro n
    simp [check_duplicates, hrun]

/-- Witness for C9: a valid collection followed by an unsupported truthy
argument. -/
theorem check_duplicates_typeError_witness :
    check_duplicates [Sample.str ['a'], Sample.other]
      = .error .typeError :=
  (check_duplicates_typeError [Sample.str ['a']] [] [['a']] rfl).1

/-- C10: a single collection containing two rows with the same name already
makes `check_duplicates` raise the duplicate-strain error. -/
theorem check_duplicates_within_single (rows : List Row)
    (h : ¬ (rows.map Row.name).Nodup) :
    ∃ n, check_duplicates [Sample.msa rows]
      = .error (.duplicateStrain n) := by
  cases haddl : addNames [] (rows.map Row.name) with
  | ok ns =>
    obtain ⟨hnd, -⟩ := (addNames_ok_iff (rows.map Row.name) []).mp ⟨ns, haddl⟩
    exact absurd hnd h
  | error e =>
    obtain ⟨n, rfl⟩ := addNames_error_dup (rows.map Row.name) [] e haddl
    refine ⟨n, ?_⟩
    have hps : processSample [] (Sample.msa rows)
        = addNames [] (rows.map Row.name) :=
      processSample_eq_addNames [] _ (by intro hc; cases hc)
    simp [check_duplicates, processAll, hps, haddl]

/-- Witness for C10: one alignment with two rows both named `a`. -/
theorem check_duplicates_within_single_witness :
    ∃ n, check_duplicates
        [Sample.msa [Row.mk ['a'] ['a'] ['a'] ['A'],
          Row.mk ['a'] ['a'] ['a'] ['C']]]
      = .error (.duplicateStrain n) :=
  check_duplicates_within_single
    [Row.mk ['a'] ['a'] ['a'] ['A'], Row.mk ['a'] ['a'] ['a'] ['C']]
    (by decide)

/-! ## Merge planner: `prune_seqs_matching_alignment` -/

/-- Embedding of `prune_seqs_matching_alignment(seqs, aln)` (lines 371-383): `seqs` is an
insertion-ordered dict from name to record; every entry whose name is a row
name of `aln` is dropped (with an informational note), the others are copied
into the fresh result dict `ret` in order. -/
def prune_seqs_matching_alignment (seqs : List (List Char × Row))
    (aln : List Row) : List (List Char × Row) :=
  let exclude_names := aln.map Row.name
  seqs.foldl (fun ret p => if p.1 ∈ exclude_names then ret else ret ++ [p]) []

theorem prune_foldl_filter (seqs : List (List Char × Row))
    (exclude : List (List Char)) (acc : List (List Char × Row)) :
    seqs.foldl (fun ret p => if p.1 ∈ exclude then ret else ret ++ [p]) acc
      = acc ++ seqs.filter (fun p => decide (p.1 ∉ exclude)) := by
  induction seqs generalizing acc with
  | nil => simp
  | cons p rest ih =>
    by_cases hp : p.1 ∈ exclude <;>
      simp [List.foldl_cons, List.filter_cons, hp, ih]

/-- C3: the merge planner returns exactly the candidate entries whose
identifier is not a row identifier of the existing alignment — the set
difference by identifier, in candidate order, with each retained entry
unchanged — and builds a fresh dict, leaving the alignment untouched. -/
theorem prune_seqs_matching_alignment_spec
    (seqs : List (List Char × Row)) (aln : List Row) :
    prune_seqs_matching_alignment seqs aln
      = seqs.filter (fun p => decide (p.1 ∉ aln.map Row.name)) ∧
    ∀ p, p ∈ prune_seqs_matching_alignment seqs aln ↔
      (p ∈ seqs ∧ p.1 ∉ aln.map Row.name) := by
  have he := prune_foldl_filter seqs (aln.map Row.name) []
  rw [List.nil_append] at he
  constructor
  · exact he
  · intro p
    rw [show prune_seqs_matching_alignment seqs aln =
      seqs.filter (fun p => decide (p.1 ∉ aln.map Row.name)) from he]
    rw [List.mem_filter]
    simp
